import Mathlib

/-!
Shallow embedding of the Tesla EDA repository's data-reshaping core
(src/tesla/src/tesla_data.py and the aggregation logic inside
src/tesla/src/tesla_timeseries.py).

Modelling conventions:
* a pandas DataFrame is a `Table`: an ordered list of `Row`s plus flags
  recording which optional columns (Date, Region) are present;
* a cell that may be NaN/missing is an `Option`; numeric cells are `ℚ`
  (exact arithmetic stands in for float arithmetic);
* a Date cell is a `DateCell`: either a raw string form `strD y m`
  (as loaded from a file) or a parsed timestamp `ts y m`
  (first day of month, the only date granularity the code produces);
* `pd.to_datetime` on a cell is `toDT`; it maps NaN (NaT) through and
  fails on an invalid month or on a valid calendar month outside the
  pandas Timestamp range (OutOfBoundsDatetime): first-of-month dates from
  1677-10 through 2262-04; years below 1000 (two-digit-year
  reinterpretation territory) are modelled as failing and the theorems
  scope themselves away from them;
* `astype(int)` on a float is truncation toward zero (`truncQ`); it fails
  on NaN, modelled as `Option`;
* `df.sort_values(date_col)` is modelled by numpy argsort with the pandas
  default kind='quicksort' (`npArgsort`): median-of-3 partition exchange
  for segments of 17 or more elements — unstable on tie runs — and stable
  insertion sort below that; NaT keys are appended last;
* fallible operations return `Option` (`none` = the Python call raises);
* in-place column assignment (`df[col] = ...`) is modelled by returning,
  next to the result, the final state of the caller's argument object
  (`_prepare_ts_df_effect`).
-/

namespace Tesla

/-- DateCell models one value of a pandas Date column: `strD y m` is the
unparsed string form (year-month-01), `ts y m` is a parsed Timestamp for
the first day of month `m` of year `y`. -/
inductive DateCell where
  | strD (y m : ℤ)
  | ts (y m : ℤ)
deriving DecidableEq

/-- Row models one record of the dataset; every cell may be missing (NaN),
hence the `Option`s. Only the columns the verified claims touch are kept;
numeric cells are exact rationals. -/
structure Row where
  year : Option ℚ
  month : Option ℚ
  region : Option String
  model : Option String
  deliveries : Option ℚ
  production : Option ℚ
  date : Option DateCell
deriving DecidableEq

/-- Table models a pandas DataFrame: an ordered list of rows plus flags for
the presence of the optional Date and Region columns (`df.columns`
membership tests in the source). When `hasRegion` is false the per-row
`region` fields are dead (the column was dropped). -/
structure Table where
  hasDate : Bool
  hasRegion : Bool
  rows : List Row
deriving DecidableEq

/-- truncQ models Python/numpy `int()` / `astype(int)` on a finite float:
truncation toward zero. -/
def truncQ (q : ℚ) : ℤ := if 0 ≤ q then ⌊q⌋ else ⌈q⌉

/-- mapOpt is `List.mapM` specialised to `Option`: apply a fallible
per-element operation to every element, failing if any application fails
(a raised exception aborts the whole pandas column operation). -/
def mapOpt (f : α → Option β) : List α → Option (List β)
  | [] => some []
  | x :: xs =>
    match f x, mapOpt f xs with
    | some y, some ys => some (y :: ys)
    | _, _ => none

/-- firstDedupAux removes duplicates keeping first occurrences, skipping
elements already in `seen`; `firstDedupAux []` models pandas
`Series.unique()`. -/
def firstDedupAux [DecidableEq α] (seen : List α) : List α → List α
  | [] => []
  | x :: xs =>
    if x ∈ seen then firstDedupAux seen xs
    else x :: firstDedupAux (x :: seen) xs

/-! ### tesla_data.py -/

/-- get_region_names (tesla_data.py:19-27): distinct non-null values of the
Region column (`dropna().unique()`), sorted lexicographically since the
default `sort=True` is what every claim uses. -/
def get_region_names (t : Table) : List String :=
  List.insertionSort (· ≤ ·) (firstDedupAux [] (t.rows.filterMap (·.region)))

/-- optLeQ orders two possibly-missing numeric keys the way pandas
`sort_values` does: NaN sorts last. -/
def optLeQ : Option ℚ → Option ℚ → Prop
  | some x, some y => x ≤ y
  | some _, none => True
  | none, some _ => False
  | none, none => True

instance : DecidableRel optLeQ := by
  intro a b
  cases a <;> cases b <;> simp [optLeQ] <;> infer_instance

/-- optLtQ is the corresponding strict order (NaN last, never below
anything). -/
def optLtQ : Option ℚ → Option ℚ → Prop
  | some x, some y => x < y
  | some _, none => True
  | _, _ => False

instance : DecidableRel optLtQ := by
  intro a b
  cases a <;> cases b <;> simp [optLtQ] <;> infer_instance

/-- ymLe is the lexicographic (Year, Month) row order used by
`sort_values(by=["Year", "Month"])` inside split_by_region. -/
def ymLe (r₁ r₂ : Row) : Prop :=
  optLtQ r₁.year r₂.year ∨ (r₁.year = r₂.year ∧ optLeQ r₁.month r₂.month)

instance : DecidableRel ymLe := fun _ _ => by
  unfold ymLe; infer_instance

/-- split_by_region (tesla_data.py:30-47): one sub-table per distinct
non-null region, rows filtered by equality with the region value, sorted
by (Year, Month), index reset, and the Region column dropped
(default `drop_region_col=True`). -/
def split_by_region (t : Table) : List (String × Table) :=
  (get_region_names t).map fun region =>
    (region,
      { hasDate := t.hasDate
        hasRegion := false
        rows := List.insertionSort ymLe
          (t.rows.filter fun r => r.region = some region) })

/-- tsMinKey is the linearized (12·year + month) key of 1677-10, the
earliest first-of-month date representable as a pandas Timestamp
(Timestamp.min is 1677-09-21, so 1677-09-01 is already out of range). -/
def tsMinKey : ℤ := 1677 * 12 + 10

/-- tsMaxKey is the linearized key of 2262-04, the latest first-of-month
date representable as a pandas Timestamp (Timestamp.max is 2262-04-11). -/
def tsMaxKey : ℤ := 2262 * 12 + 4

/-- inTsRange y m holds when the first-of-month date y-m-01 lies inside
the pandas Timestamp (datetime64 nanosecond) range; outside it,
`pd.to_datetime` raises OutOfBoundsDatetime even for a valid calendar
month. For months 1..12 the key 12·y + m compares like (y, m). -/
def inTsRange (y m : ℤ) : Prop :=
  tsMinKey ≤ y * 12 + m ∧ y * 12 + m ≤ tsMaxKey

instance (y m : ℤ) : Decidable (inTsRange y m) := by
  unfold inTsRange; infer_instance

/-- addDateRow is the per-row work of add_date_column: cast Year and Month
to int (fails on NaN; truncates toward zero otherwise), build the string
year-month-01 and parse it, which fails unless the month is a valid
calendar month 1..12 AND the date lies in the pandas Timestamp range
(else OutOfBoundsDatetime). Years below 1000 print with fewer than four
digits and go through the string parser's two-digit-year reinterpretation;
they are modelled as failing (they are far outside the Timestamp range as
literal years), and the theorems that rely on this definition scope their
statements to truncated years of at least 1000. -/
def addDateRow (r : Row) : Option Row :=
  match r.year, r.month with
  | some y, some m =>
    let yi := truncQ y
    let mi := truncQ m
    if 1 ≤ mi ∧ mi ≤ 12 ∧ inTsRange yi mi then
      some { r with date := some (DateCell.ts yi mi) }
    else none
  | _, _ => none

/-- add_date_column (tesla_data.py:50-63): `df = df.copy()` then assign a
synthesized Date column; the input table is never mutated, the result has
the Date column present. -/
def add_date_column (t : Table) : Option Table :=
  (mapOpt addDateRow t.rows).map fun rs =>
    { t with hasDate := true, rows := rs }

/-- sanitizeChar lowercases one character and replaces a space or slash by
an underscore (the order of `.lower().replace(...)` in the source does not
matter character-wise since lowercasing fixes space and slash). -/
def sanitizeChar (c : Char) : Char :=
  let c' := c.toLower
  if c' = ' ' ∨ c' = '/' then '_' else c'

/-- strTrim drops leading and trailing whitespace characters, modelling
Python `str.strip()`. -/
def strTrim (l : List Char) : List Char :=
  ((l.dropWhile Char.isWhitespace).reverse.dropWhile Char.isWhitespace).reverse

/-- sanitize models the region-name sanitization in save_region_dfs:
strip, lowercase, replace spaces and slashes with underscores. -/
def sanitize (s : String) : String :=
  String.mk ((strTrim s.data).map sanitizeChar)

/-- save_region_dfs (tesla_data.py:66-84). The `for` loop only rebinds
`safe_region` and `rdf`; the `out_path = ...` and `rdf.to_csv(...)`
statements sit OUTSIDE the loop body (they are dedented in the source), so
a single write happens after the loop, using the bindings left by the last
iteration. With an empty mapping the trailing statements hit unbound names
(NameError), modelled as `none`. The result is the list of (filename,
table) pairs actually written. -/
def save_region_dfs (region_dfs : List (String × Table)) (pre : String) :
    Option (List (String × Table)) :=
  let last := region_dfs.foldl
    (fun _ p => some (sanitize p.1, p.2)) (none : Option (String × Table))
  match last with
  | none => none
  | some (safe_region, rdf) => some [(pre ++ safe_region ++ ".csv", rdf)]

/-! ### tesla_timeseries.py -/

/-- toDT models `pd.to_datetime` on one Date cell: a parsed timestamp maps
to itself, NaN (NaT) passes through, and a raw string parses iff its month
is a valid calendar month 1..12 and the date lies within the pandas
Timestamp range (outside it the call raises OutOfBoundsDatetime). As with
addDateRow, years below 1000 are modelled as failing; the claims never
reach that corner. -/
def toDT : Option DateCell → Option (Option DateCell)
  | none => some none
  | some (DateCell.ts y m) => some (some (DateCell.ts y m))
  | some (DateCell.strD y m) =>
    if 1 ≤ m ∧ m ≤ 12 ∧ inTsRange y m then some (some (DateCell.ts y m))
    else none

/-- rowToDT applies `pd.to_datetime` to the Date cell of one row. -/
def rowToDT (r : Row) : Option Row :=
  (toDT r.date).map fun d => { r with date := d }

/-- cellKey linearizes a date to an integer for ordering: first-of-month
timestamps compare exactly like `(y, m)` lexicographically for calendar
months. -/
def cellKey : DateCell → ℤ
  | DateCell.strD y m => y * 12 + m
  | DateCell.ts y m => y * 12 + m

/-- keyLe is chronological order on parsed date keys. -/
def keyLe (a b : DateCell) : Prop := cellKey a ≤ cellKey b

instance : DecidableRel keyLe := fun _ _ => by
  unfold keyLe; infer_instance

instance : IsTotal DateCell keyLe := ⟨fun a b => le_total (cellKey a) (cellKey b)⟩

instance : IsTrans DateCell keyLe := ⟨fun _ _ _ h₁ h₂ => le_trans h₁ h₂⟩

/-- dateLe orders two rows by their Date cell for `sort_values(date_col)`,
with NaT sorting last. -/
def dateLe (r₁ r₂ : Row) : Prop :=
  match r₁.date, r₂.date with
  | some a, some b => keyLe a b
  | some _, none => True
  | none, some _ => False
  | none, none => True

instance : DecidableRel dateLe := by
  intro a b
  unfold dateLe
  rcases a.date with _ | d₁ <;> rcases b.date with _ | d₂ <;> infer_instance

instance : IsTotal Row dateLe := by
  constructor
  intro a b
  unfold dateLe
  rcases ha : a.date with _ | d₁ <;> rcases hb : b.date with _ | d₂ <;> simp
  exact total_of keyLe d₁ d₂

instance : IsTrans Row dateLe := by
  constructor
  intro a b c h₁ h₂
  unfold dateLe at *
  rcases ha : a.date with _ | d₁ <;> rcases hb : b.date with _ | d₂ <;>
    rcases hc : c.date with _ | d₃ <;> simp_all
  exact IsTrans.trans d₁ d₂ d₃ h₁ h₂

/-- rowKey is the datetime64 sort key of a row whose Date cell is
present; the argsort below only ever reads it on the non-NaT segment. -/
def rowKey (r : Row) : ℤ := cellKey (r.date.getD (DateCell.ts 0 0))

/-- padRow is the out-of-range default for index lookups; its key is 0.
The numpy scans never actually leave their segment thanks to the
median-of-3 / pivot sentinels, so the default is never observed on the
inputs the theorems touch. -/
def padRow : Row :=
  { year := none, month := none, region := none, model := none,
    deliveries := none, production := none, date := some (DateCell.ts 0 0) }

/-- idxKey keys i reads the key stored at position i (0 beyond range). -/
def idxKey (keys : List ℤ) (i : ℕ) : ℤ := keys.getD i 0

/-- keyAt keys ts i is numpy's v[tosort[i]]: the key of the element the
index list currently places at position i. -/
def keyAt (keys : List ℤ) (ts : List ℕ) (i : ℕ) : ℤ := idxKey keys (ts.getD i 0)

/-- listSwap swaps positions i and j of the index list
(numpy's INTP_SWAP). -/
def listSwap (ts : List ℕ) (i j : ℕ) : List ℕ :=
  let a := ts.getD i 0
  let b := ts.getD j 0
  (ts.set i b).set j a

/-- scanUp is numpy's `do ++pi; while (v[tosort[pi]] < vp)`: the first
position above i whose key is not below the pivot. The fuel only bounds
the loop; the segment length always suffices. -/
def scanUp (keys : List ℤ) (ts : List ℕ) (vp : ℤ) : ℕ → ℕ → ℕ
  | 0, i => i + 1
  | fuel + 1, i =>
    if keyAt keys ts (i + 1) < vp then scanUp keys ts vp fuel (i + 1) else i + 1

/-- scanDown is numpy's `do --pj; while (vp < v[tosort[pj]])`. -/
def scanDown (keys : List ℤ) (ts : List ℕ) (vp : ℤ) : ℕ → ℕ → ℕ
  | 0, j => j - 1
  | fuel + 1, j =>
    if vp < keyAt keys ts (j - 1) then scanDown keys ts vp fuel (j - 1) else j - 1

/-- partLoop is numpy's partition-exchange loop: scan up from pi and down
from pj, swap the out-of-place pair, and repeat until the cursors cross
(`if (pi >= pj) break`); returns the exchanged index list and the final
pi. Note the loop swaps elements EQUAL to the pivot symmetrically around
it — the source of quicksort's instability on tie runs. -/
def partLoop (keys : List ℤ) (vp : ℤ) : ℕ → List ℕ → ℕ → ℕ → List ℕ × ℕ
  | 0, ts, i, _ => (ts, i)
  | fuel + 1, ts, i, j =>
    let i' := scanUp keys ts vp keys.length i
    let j' := scanDown keys ts vp keys.length j
    if j' ≤ i' then (ts, i')
    else partLoop keys vp fuel (listSwap ts i' j') i' j'

/-- relKey orders positions of the key array by their key values; it is
the order numpy's small-segment insertion sort realizes. That insertion
sort is stable, as is `List.insertionSort`, and the stable sort by a
total preorder is unique, so the latter models the former exactly. -/
def relKey (keys : List ℤ) (i j : ℕ) : Prop := idxKey keys i ≤ idxKey keys j

instance (keys : List ℤ) : DecidableRel (relKey keys) := fun _ _ => by
  unfold relKey; infer_instance

instance (keys : List ℤ) : IsTotal ℕ (relKey keys) :=
  ⟨fun a b => le_total (idxKey keys a) (idxKey keys b)⟩

instance (keys : List ℤ) : IsTrans ℕ (relKey keys) :=
  ⟨fun _ _ _ h₁ h₂ => le_trans h₁ h₂⟩

/-- insSeg stably sorts the segment [pl..pr] of the index list by key,
modelling the insertion-sort tail of numpy's quicksort. -/
def insSeg (keys : List ℤ) (ts : List ℕ) (pl pr : ℕ) : List ℕ :=
  ts.take pl ++
    List.insertionSort (relKey keys) ((ts.drop pl).take (pr + 1 - pl)) ++
    ts.drop (pr + 1)

/-- qsortSeg is numpy's npy_aquicksort on the segment [pl..pr] of the
index list: a segment of pointer difference above SMALL_QUICKSORT = 15
(17 or more elements) is partitioned with a median-of-3 pivot (the pivot
is parked at pr-1 before the exchange loop and swapped back to the
crossing point pi after it), then both sides are sorted recursively
(numpy drives this with an explicit stack, larger side deferred; the
segments are disjoint so the order of processing cannot change the
result); 16 or fewer elements get the stable insertion sort. The fuel
bounds only the recursion depth — segment sizes shrink strictly, so
keys.length + 1 always suffices — and the introsort heapsort fallback
(reached only beyond depth 2·log₂ n, never at these sizes) is not
modelled. -/
def qsortSeg (keys : List ℤ) : ℕ → List ℕ → ℕ → ℕ → List ℕ
  | 0, ts, _, _ => ts
  | fuel + 1, ts, pl, pr =>
    if pr ≤ pl + 15 then insSeg keys ts pl pr
    else
      let pm := pl + (pr - pl) / 2
      let ts1 := if keyAt keys ts pm < keyAt keys ts pl then listSwap ts pm pl else ts
      let ts2 := if keyAt keys ts1 pr < keyAt keys ts1 pm then listSwap ts1 pr pm else ts1
      let ts3 := if keyAt keys ts2 pm < keyAt keys ts2 pl then listSwap ts2 pm pl else ts2
      let vp := keyAt keys ts3 pm
      let ts4 := listSwap ts3 pm (pr - 1)
      let pp := partLoop keys vp keys.length ts4 pl (pr - 1)
      let ts5 := listSwap pp.1 pp.2 (pr - 1)
      qsortSeg keys fuel (qsortSeg keys fuel ts5 pl (pp.2 - 1)) (pp.2 + 1) pr

/-- npArgsort models `np.argsort(keys, kind="quicksort")`, the sort
pandas `sort_values` uses by default. -/
def npArgsort (keys : List ℤ) : List ℕ :=
  qsortSeg keys (keys.length + 1) (List.range keys.length) 0 (keys.length - 1)

/-- npSortRows models pandas nargsort plus take: the non-NaT rows are
argsorted by their datetime key and reordered accordingly, and the NaT
rows are appended in their original order (na_position='last'). -/
def npSortRows (rs : List Row) : List Row :=
  let nn := (rs.partition fun r => r.date ≠ none).1
  let nulls := (rs.partition fun r => r.date ≠ none).2
  ((npArgsort (nn.map rowKey)).filterMap fun i => nn[i]?) ++ nulls

/-- sortByDate models `df.sort_values(date_col).reset_index(drop=True)`
with pandas defaults: kind='quicksort' (numpy argsort, unstable for
segments of 17 or more elements), ascending, NaT keys last. -/
def sortByDate (t : Table) : Table :=
  { t with rows := npSortRows t.rows }

/-- Effect model of the guard (tesla_timeseries.py:9-18): the full
behaviour of `_prepare_ts_df`, returning `(result, caller's table after
the call)`. When the Date column is absent the function rebinds `df` to
the fresh copy made by add_date_column, so the caller's object is
untouched; when the Date column is present, `df[date_col] =
pd.to_datetime(df[date_col])` assigns into the CALLER'S frame, so the
caller observes the converted column (the later `df = df.sort_values...`
only rebinds the local name). If the conversion raises, the assignment
never happens and the caller's table is unchanged. -/
def _prepare_ts_df_effect (t : Table) : Option Table × Table :=
  if t.hasDate then
    match mapOpt rowToDT t.rows with
    | none => (none, t)
    | some rs =>
      let t' := { t with rows := rs }
      (some (sortByDate t'), t')
  else
    match add_date_column t with
    | none => (none, t)
    | some u =>
      match mapOpt rowToDT u.rows with
      | none => (none, t)
      | some rs => (some (sortByDate { u with rows := rs }), t)

/-- Returned table of the guard `_prepare_ts_df` (the value every
analysis function continues with). -/
def _prepare_ts_df (t : Table) : Option Table :=
  (_prepare_ts_df_effect t).1

/-- distinctDates models the group keys of `df.groupby(date_col)`:
distinct non-null Date values, sorted ascending (`sort=True` default;
NaT keys are dropped by groupby). -/
def distinctDates (t : Table) : List DateCell :=
  List.insertionSort keyLe (firstDedupAux [] (t.rows.filterMap (·.date)))

/-- sumDeliv is the reduced value of one Date group for the
monthly-deliveries analysis: the sum of Estimated_Deliveries over the
rows of that group, NaN cells skipped (pandas `sum` default). -/
def sumDeliv (t : Table) (d : DateCell) : ℚ :=
  ((t.rows.filter fun r => r.date = some d).map
    fun r => r.deliveries.getD 0).sum

/-- monthlyDeliveries (tesla_timeseries.py:48-49) is the data path of
plot_monthly_deliveries: prepare the table, then
`df.groupby(date_col)["Estimated_Deliveries"].sum()` as an ordered
key-value sequence. -/
def monthlyDeliveries (t : Table) : Option (List (DateCell × ℚ)) :=
  (_prepare_ts_df t).map fun u =>
    (distinctDates u).map fun d => (d, sumDeliv u d)

/-- modelNames models the Model level of
`df.groupby([date_col, "Model"])` after `unstack("Model")`: the distinct
non-null Model values, sorted (groupby sorts key levels). -/
def modelNames (t : Table) : List String :=
  List.insertionSort (· ≤ ·) (firstDedupAux [] (t.rows.filterMap (·.model)))

/-- cellSum is one cell of the pivot in plot_model_share_ts: the summed
Estimated_Deliveries for a (Date, Model) pair; an absent combination is
`fillna(0.0)`, and a present combination whose deliveries are all NaN
sums to 0, so both are 0 here. -/
def cellSum (t : Table) (d : DateCell) (mo : String) : ℚ :=
  ((t.rows.filter fun r => r.date = some d ∧ r.model = some mo).map
    fun r => r.deliveries.getD 0).sum

/-- rowSum is `pivot.sum(axis=1)` for one Date row. -/
def rowSum (t : Table) (d : DateCell) : ℚ :=
  ((modelNames t).map fun mo => cellSum t d mo).sum

/-- PVal models one float cell that can carry the results of IEEE division
as pandas produces them: an ordinary value, NaN (0/0), or ±infinity
(nonzero/0). -/
inductive PVal where
  | val (q : ℚ)
  | nan
  | inf
  | ninf
deriving DecidableEq

/-- pdiv models pandas `DataFrame.div` on one cell: ordinary division when
the divisor is nonzero, otherwise NaN for 0/0 and ±inf for a nonzero
numerator — no substitution of 0.0 happens anywhere. -/
def pdiv (a b : ℚ) : PVal :=
  if b ≠ 0 then PVal.val (a / b)
  else if a = 0 then PVal.nan
  else if 0 < a then PVal.inf
  else PVal.ninf

/-- shareRow is one Date row of `share = pivot.div(pivot.sum(axis=1),
axis=0)` in plot_model_share_ts (tesla_timeseries.py:205-221): each model
cell divided by the row-sum. -/
def shareRow (t : Table) (d : DateCell) : List (String × PVal) :=
  (modelNames t).map fun mo => (mo, pdiv (cellSum t d mo) (rowSum t d))

/-- modelShare is the data path of plot_model_share_ts: prepare, pivot by
(Date, Model), fill absent combinations with 0, divide rows by row-sums. -/
def modelShare (t : Table) : Option (List (DateCell × List (String × PVal))) :=
  (_prepare_ts_df t).map fun u =>
    (distinctDates u).map fun d => (d, shareRow u d)

/-! ### Helper lemmas -/

theorem mapOpt_of_forall_some {f : α → Option α} :
    ∀ {l : List α}, (∀ x ∈ l, f x = some x) → mapOpt f l = some l := by
  intro l
  induction l with
  | nil => intro _; rfl
  | cons x xs ih =>
    intro h
    have hx : f x = some x := h x (List.mem_cons_self x xs)
    have hxs : mapOpt f xs = some xs := ih fun y hy => h y (List.mem_cons_of_mem x hy)
    simp [mapOpt, hx, hxs]

theorem mapOpt_mem {f : α → Option β} :
    ∀ {l : List α} {l' : List β}, mapOpt f l = some l' →
      ∀ y ∈ l', ∃ x ∈ l, f x = some y := by
  intro l
  induction l with
  | nil =>
    intro l' h y hy
    simp [mapOpt] at h
    subst h
    simp at hy
  | cons x xs ih =>
    intro l' h y hy
    rw [mapOpt] at h
    rcases hfx : f x with _ | z
    · rw [hfx] at h; exact absurd h (by simp)
    rcases hrest : mapOpt f xs with _ | zs
    · rw [hfx, hrest] at h; exact absurd h (by simp)
    rw [hfx, hrest] at h
    simp only [Option.some.injEq] at h
    subst h
    rcases List.mem_cons.mp hy with h₁ | h₂
    · exact ⟨x, List.mem_cons_self x xs, h₁ ▸ hfx⟩
    · obtain ⟨w, hw, hfw⟩ := ih hrest y h₂
      exact ⟨w, List.mem_cons_of_mem x hw, hfw⟩

theorem mapOpt_isSome_iff {f : α → Option β} :
    ∀ {l : List α}, (mapOpt f l).isSome ↔ ∀ x ∈ l, (f x).isSome := by
  intro l
  induction l with
  | nil => simp [mapOpt]
  | cons x xs ih =>
    rw [mapOpt]
    rcases hfx : f x with _ | z <;> rcases hrest : mapOpt f xs with _ | zs <;>
      simp_all

theorem mapOpt_eq_map {f : α → Option β} {g : α → β} :
    ∀ {l : List α}, (∀ x ∈ l, f x = some (g x)) → mapOpt f l = some (l.map g) := by
  intro l
  induction l with
  | nil => intro _; rfl
  | cons x xs ih =>
    intro h
    have hx := h x (List.mem_cons_self x xs)
    have hxs := ih fun y hy => h y (List.mem_cons_of_mem x hy)
    simp [mapOpt, hx, hxs]

theorem firstDedupAux_mem [DecidableEq α] :
    ∀ {l seen : List α} {x : α}, x ∈ firstDedupAux seen l ↔ x ∈ l ∧ x ∉ seen := by
  intro l
  induction l with
  | nil => simp [firstDedupAux]
  | cons y ys ih =>
    intro seen x
    rw [firstDedupAux]
    by_cases hy : y ∈ seen
    · rw [if_pos hy, ih]
      constructor
      · rintro ⟨hml, hns⟩; exact ⟨List.mem_cons_of_mem y hml, hns⟩
      · rintro ⟨hml, hns⟩
        rcases List.mem_cons.mp hml with rfl | hml'
        · exact absurd hy hns
        · exact ⟨hml', hns⟩
    · rw [if_neg hy]
      simp only [List.mem_cons, ih]
      constructor
      · rintro (rfl | ⟨hml, hns⟩)
        · exact ⟨Or.inl rfl, hy⟩
        · exact ⟨Or.inr hml, fun hx => hns (Or.inr hx)⟩
      · rintro ⟨rfl | hml, hns⟩
        · exact Or.inl rfl
        · by_cases hxy : x = y
          · exact Or.inl hxy
          · refine Or.inr ⟨hml, fun hx => ?_⟩
            rcases hx with h | h
            exacts [hxy h, hns h]

theorem firstDedupAux_nodup [DecidableEq α] :
    ∀ {l seen : List α}, (firstDedupAux seen l).Nodup := by
  intro l
  induction l with
  | nil => intro seen; simp [firstDedupAux]
  | cons y ys ih =>
    intro seen
    rw [firstDedupAux]
    by_cases hy : y ∈ seen
    · rw [if_pos hy]; exact ih
    · rw [if_neg hy]
      refine List.nodup_cons.mpr ⟨fun hmem => ?_, ih⟩
      exact (firstDedupAux_mem.mp hmem).2 (List.mem_cons_self y seen)

theorem sum_map_ite_eq_one [DecidableEq α] {a : α} :
    ∀ {names : List α}, names.Nodup → a ∈ names →
      (names.map fun s => if a = s then (1 : ℕ) else 0).sum = 1 := by
  intro names
  induction names with
  | nil => simp
  | cons n ns ih =>
    intro hnd hmem
    rcases List.mem_cons.mp hmem with rfl | hmem'
    · have hnotin : a ∉ ns := (List.nodup_cons.mp hnd).1
      have hzero : (ns.map fun s => if a = s then (1 : ℕ) else 0).sum = 0 := by
        refine List.sum_eq_zero fun x hx => ?_
        obtain ⟨s, hs, hval⟩ := List.mem_map.mp hx
        rw [← hval, if_neg]
        rintro rfl
        exact hnotin hs
      simp [hzero]
    · have hne : a ≠ n := by
        rintro rfl
        exact (List.nodup_cons.mp hnd).1 hmem'
      simp [if_neg hne, ih (List.nodup_cons.mp hnd).2 hmem']

theorem sum_region_counts {names : List String} :
    ∀ {l : List Row}, names.Nodup →
      (∀ r ∈ l, ∀ s, r.region = some s → s ∈ names) →
      (names.map fun s => (l.filter fun r => r.region = some s).length).sum =
        (l.filter fun r => r.region ≠ none).length := by
  intro l
  induction l with
  | nil => intro _ _; simp
  | cons r rs ih =>
    intro hnd hcov
    have hrs := ih hnd fun x hx => hcov x (List.mem_cons_of_mem r hx)
    rcases hreg : r.region with _ | s₀
    · have hmap : (names.map fun s => ((r :: rs).filter
          fun x => x.region = some s).length) =
          names.map fun s => (rs.filter fun x => x.region = some s).length := by
        refine List.map_congr_left fun s _ => ?_
        rw [List.filter_cons, if_neg (by simp [hreg])]
      rw [hmap, hrs, List.filter_cons, if_neg (by simp [hreg])]
    · have hs₀ : s₀ ∈ names := hcov r (List.mem_cons_self r rs) s₀ hreg
      have hmap : (names.map fun s => ((r :: rs).filter
          fun x => x.region = some s).length) =
          names.map fun s => ((if s₀ = s then 1 else 0) +
            (rs.filter fun x => x.region = some s).length) := by
        refine List.map_congr_left fun s _ => ?_
        rw [List.filter_cons]
        by_cases hss : s₀ = s
        · rw [if_pos (by simp [hreg, hss]), if_pos hss, List.length_cons]
          omega
        · rw [if_neg (by simp [hreg, hss]), if_neg hss, Nat.zero_add]
      rw [hmap, List.sum_map_add, sum_map_ite_eq_one hnd hs₀, hrs,
        List.filter_cons, if_pos (by simp [hreg]), List.length_cons]
      omega

theorem sum_map_div {S : ℚ} {f : α → ℚ} :
    ∀ {l : List α}, (l.map fun x => f x / S).sum = (l.map f).sum / S := by
  intro l
  induction l with
  | nil => simp
  | cons x xs ih => simp [ih, add_div]

/-- rowKeyLe orders rows by their datetime key; on rows with a Date cell
it coincides with chronological order. -/
def rowKeyLe (r s : Row) : Prop := rowKey r ≤ rowKey s

instance : DecidableRel rowKeyLe := fun _ _ => by
  unfold rowKeyLe; infer_instance

instance : IsTotal Row rowKeyLe := ⟨fun a b => le_total (rowKey a) (rowKey b)⟩

instance : IsTrans Row rowKeyLe := ⟨fun _ _ _ h₁ h₂ => le_trans h₁ h₂⟩

theorem mapOpt_length {f : α → Option β} :
    ∀ {l : List α} {l' : List β}, mapOpt f l = some l' → l'.length = l.length := by
  intro l
  induction l with
  | nil => intro l' h; simp [mapOpt] at h; subst h; rfl
  | cons x xs ih =>
    intro l' h
    rw [mapOpt] at h
    rcases hfx : f x with _ | y
    · rw [hfx] at h; exact absurd h (by simp)
    rcases hrest : mapOpt f xs with _ | ys
    · rw [hfx, hrest] at h; exact absurd h (by simp)
    rw [hfx, hrest] at h
    simp only [Option.some.injEq] at h
    subst h
    simp [ih hrest]

theorem npSortRows_mem {rs : List Row} {x : Row} (hx : x ∈ npSortRows rs) :
    x ∈ rs := by
  unfold npSortRows at hx
  rw [List.partition_eq_filter_filter] at hx
  rcases List.mem_append.mp hx with h | h
  · obtain ⟨i, _, hi⟩ := List.mem_filterMap.mp h
    exact List.mem_of_mem_filter (List.getElem?_mem hi)
  · exact List.mem_of_mem_filter h

theorem npArgsort_small {keys : List ℤ} (h : keys.length ≤ 16) :
    npArgsort keys = List.insertionSort (relKey keys) (List.range keys.length) := by
  unfold npArgsort
  rw [qsortSeg]
  rw [if_pos (by omega)]
  unfold insSeg
  rcases hn : keys.length with _ | n
  · simp [List.insertionSort]
  · have e1 : n + 1 - 1 + 1 - 0 = n + 1 := by omega
    have e2 : n + 1 - 1 + 1 = n + 1 := by omega
    rw [e1, e2, List.take_zero, List.drop_zero, List.nil_append,
      List.take_of_length_le (by simp), List.drop_eq_nil_of_le (by simp),
      List.append_nil]

theorem map_getD_range {l : List Row} :
    (List.range l.length).map (fun i => l.getD i padRow) = l := by
  refine List.ext_getElem (by simp) fun i h1 h2 => ?_
  simp only [List.getElem_map, List.getElem_range]
  exact List.getD_eq_getElem l padRow h2

theorem filterMap_getElem_eq_map_getD {l : List Row} :
    ∀ {is : List ℕ}, (∀ i ∈ is, i < l.length) →
      is.filterMap (fun i => l[i]?) = is.map fun i => l.getD i padRow := by
  intro is
  induction is with
  | nil => intro _; rfl
  | cons i is ih =>
    intro h
    have hi : i < l.length := h i (List.mem_cons_self i is)
    have hsome : l[i]? = some (l.getD i padRow) := by
      rw [List.getElem?_eq_getElem hi, List.getD_eq_getElem l padRow hi]
    rw [List.filterMap_cons, hsome, List.map_cons,
      ih fun j hj => h j (List.mem_cons_of_mem i hj)]

theorem argsortApply_small {l : List Row} (h : l.length ≤ 16) :
    (npArgsort (l.map rowKey)).filterMap (fun i => l[i]?) =
      List.insertionSort rowKeyLe l := by
  rw [npArgsort_small (by simpa using h)]
  have hmem : ∀ i ∈ List.insertionSort (relKey (l.map rowKey))
      (List.range (l.map rowKey).length), i < l.length := by
    intro i hi
    have := (List.mem_insertionSort _).mp hi
    simpa using List.mem_range.mp this
  rw [filterMap_getElem_eq_map_getD hmem]
  have hcompat : ∀ a ∈ List.range (l.map rowKey).length,
      ∀ b ∈ List.range (l.map rowKey).length,
      relKey (l.map rowKey) a b ↔
        rowKeyLe (l.getD a padRow) (l.getD b padRow) := by
    intro a ha b hb
    have ha' : a < l.length := by simpa using List.mem_range.mp ha
    have hb' : b < l.length := by simpa using List.mem_range.mp hb
    have key_eq : ∀ c : ℕ, c < l.length →
        (l.map rowKey).getD c 0 = rowKey (l.getD c padRow) := by
      intro c hc
      rw [List.getD_eq_getElem _ _ (by simpa using hc), List.getElem_map,
        List.getD_eq_getElem l padRow hc]
    unfold relKey idxKey rowKeyLe
    rw [key_eq a ha', key_eq b hb']
  rw [List.map_insertionSort (relKey (l.map rowKey)) rowKeyLe _ _ hcompat]
  have : (List.range (l.map rowKey).length).map (fun i => l.getD i padRow) = l := by
    rw [List.length_map]
    exact map_getD_range
  rw [this]

theorem npSortRows_small {rs : List Row} (h : rs.length ≤ 16) :
    npSortRows rs =
      List.insertionSort rowKeyLe (rs.filter fun r => r.date ≠ none) ++
        rs.filter (fun r => !decide (r.date ≠ none)) := by
  unfold npSortRows
  rw [List.partition_eq_filter_filter]
  dsimp only
  rw [Function.comp_def]
  rw [argsortApply_small (le_trans (List.length_filter_le _ _) h)]

theorem npSortRows_idem_small {rs : List Row} (h : rs.length ≤ 16) :
    npSortRows (npSortRows rs) = npSortRows rs := by
  have hsmall := npSortRows_small h
  set nn := rs.filter fun r => r.date ≠ none with hnn
  set nulls := rs.filter (fun r => !decide (r.date ≠ none)) with hnulls
  set sortedNN := List.insertionSort rowKeyLe nn with hsorted
  have hnnP : ∀ r ∈ sortedNN, (decide (r.date ≠ none)) = true := by
    intro r hr
    rw [hsorted, List.mem_insertionSort, hnn] at hr
    simpa using List.of_mem_filter hr
  have hnullsP : ∀ r ∈ nulls, (decide (r.date ≠ none)) = false := by
    intro r hr
    have := List.of_mem_filter hr
    simpa using this
  have hlen2 : (npSortRows rs).length ≤ 16 := by
    rw [hsmall]
    have := List.filter_append_perm (fun r => decide (r.date ≠ none)) rs
    have hsum : nn.length + nulls.length = rs.length := by
      simpa [hnn, hnulls] using this.length_eq
    simp only [List.length_append, hsorted, List.length_insertionSort]
    omega
  rw [hsmall]
  rw [show npSortRows (sortedNN ++ nulls) =
      List.insertionSort rowKeyLe ((sortedNN ++ nulls).filter fun r => r.date ≠ none) ++
        (sortedNN ++ nulls).filter (fun r => !decide (r.date ≠ none)) from by
    exact npSortRows_small (show (sortedNN ++ nulls).length ≤ 16 from by
      rw [hsmall] at hlen2; exact hlen2)]
  have hfilter1 : (sortedNN ++ nulls).filter (fun r => decide (r.date ≠ none)) = sortedNN := by
    rw [List.filter_append, List.filter_eq_self.mpr hnnP,
      List.filter_eq_nil_iff.mpr (fun a ha => by simp [hnullsP a ha]),
      List.append_nil]
  have hfilter2 : (sortedNN ++ nulls).filter (fun r => !decide (r.date ≠ none)) = nulls := by
    rw [List.filter_append,
      List.filter_eq_nil_iff.mpr (fun a ha => by simp [hnnP a ha]),
      List.filter_eq_self.mpr (fun a ha => by simp [hnullsP a ha]),
      List.nil_append]
  rw [hfilter1, hfilter2]
  rw [(List.sorted_insertionSort rowKeyLe nn).insertionSort_eq]

theorem foldl_keeps_last {l : List (String × Table)} :
    ∀ (init : Option (String × Table)) {p : String × Table},
      l.getLast? = some p →
      l.foldl (fun _ q => some (sanitize q.1, q.2)) init =
        some (sanitize p.1, p.2) := by
  induction l with
  | nil => intro init p h; simp at h
  | cons x xs ih =>
    intro init p h
    cases xs with
    | nil =>
      simp only [List.getLast?] at h
      cases h
      rfl
    | cons y ys =>
      rw [List.getLast?_cons_cons] at h
      rw [List.foldl_cons]
      exact ih _ h

/-! ### Concrete inputs used by witnesses and counterexamples -/

/-- rowYMRM builds a fully populated row from year, month, region, model,
deliveries and production (no Date cell yet). -/
def rowYMRM (y m : ℚ) (reg mo : String) (del pr : ℚ) : Row :=
  { year := some y, month := some m, region := some reg, model := some mo,
    deliveries := some del, production := some pr, date := none }

/-- T1ex is a one-row US table. -/
def T1ex : Table :=
  { hasDate := false, hasRegion := true, rows := [rowYMRM 2023 1 ("US") ("X") 1 1] }

/-- T2ex is a one-row EU table with different content than T1ex. -/
def T2ex : Table :=
  { hasDate := false, hasRegion := true, rows := [rowYMRM 2023 1 ("EU") ("Y") 2 2] }

/-- C1: for every mapping of two or more regions to tables passed to
save_region_dfs, only the last region in iteration order reaches the write
path: exactly one CSV file is produced, named from the sanitized last
region's name and holding the last region's table. -/
theorem save_region_dfs_writes_only_last
    (rds : List (String × Table)) (pre : String) (p : String × Table)
    (hlen : 2 ≤ rds.length) (hlast : rds.getLast? = some p) :
    save_region_dfs rds pre = some [(pre ++ sanitize p.1 ++ ".csv", p.2)] := by
  unfold save_region_dfs
  rw [foldl_keeps_last _ hlast]

/-- Witness for C1 at the concrete two-region mapping
US ↦ T1ex, EU ↦ T2ex with the default file name stem. -/
theorem save_region_dfs_writes_only_last_witness :
    2 ≤ ([(("US" : String), T1ex), ("EU", T2ex)] : List (String × Table)).length ∧
    ([(("US" : String), T1ex), ("EU", T2ex)] : List (String × Table)).getLast? =
      some ("EU", T2ex) ∧
    save_region_dfs [("US", T1ex), ("EU", T2ex)] "tesla_" =
      some [("tesla_" ++ sanitize ("EU") ++ ".csv", T2ex)] :=
  ⟨by simp, rfl,
    save_region_dfs_writes_only_last [("US", T1ex), ("EU", T2ex)] "tesla_"
      ("EU", T2ex) (by simp) rfl⟩

/-- tThree is the spec's concrete three-row scenario table:
rows (2023,1,US,X,100,120), (2023,1,EU,X,50,120), (2023,2,US,X,80,90). -/
def tThree : Table :=
  { hasDate := false, hasRegion := true,
    rows := [rowYMRM 2023 1 ("US") ("X") 100 120, rowYMRM 2023 1 ("EU") ("X") 50 120,
             rowYMRM 2023 2 ("US") ("X") 80 90] }

/-- C7: the monthly-totals aggregation on the three-row concrete scenario
(2023-01 US 100, 2023-01 EU 50, 2023-02 US 80) yields exactly
2023-01 ↦ 150 and 2023-02 ↦ 80. -/
theorem monthly_deliveries_concrete :
    monthlyDeliveries tThree =
      some [(DateCell.ts 2023 1, 150), (DateCell.ts 2023 2, 80)] := by
  simp [tThree, monthlyDeliveries, _prepare_ts_df, _prepare_ts_df_effect, add_date_column,
    mapOpt, addDateRow, truncQ, sortByDate, npSortRows_small, rowKeyLe, rowKey, distinctDates, firstDedupAux, sumDeliv,
    rowYMRM, List.insertionSort, List.orderedInsert, dateLe, keyLe, cellKey,
    rowToDT, toDT, inTsRange, tsMinKey, tsMaxKey]
  norm_num

/-- C8: run of the Exporter at the claim's concrete input. Contrary to the
fixed non-defective design of the spec, the code writes exactly one file —
the last region's — because the write statement sits outside the loop:
given US ↦ T1ex, EU ↦ T2ex and stem tesla_ it produces only tesla_eu.csv
holding T2ex's rows, and no tesla_us.csv. -/
theorem save_region_dfs_drops_all_but_last :
    save_region_dfs [("US", T1ex), ("EU", T2ex)] "tesla_" =
      some [("tesla_eu.csv", T2ex)] ∧
    ∀ out, save_region_dfs [("US", T1ex), ("EU", T2ex)] "tesla_" = some out →
      ("tesla_us.csv", T1ex) ∉ out := by
  constructor
  · simp [save_region_dfs, sanitize, strTrim, sanitizeChar, Char.toLower]
  · intro out hout
    simp only [save_region_dfs, List.foldl_cons, List.foldl_nil,
      Option.some.injEq] at hout
    subst hout
    intro hmem
    rw [List.mem_singleton, Prod.mk.injEq] at hmem
    have : ("tesla_" ++ sanitize ("EU") ++ ".csv" : String) = "tesla_eu.csv" := by
      simp [sanitize, strTrim, sanitizeChar, Char.toLower]
    rw [this] at hmem
    exact absurd hmem.1.symm (by decide)

theorem get_region_names_nodup (t : Table) : (get_region_names t).Nodup := by
  unfold get_region_names
  exact (List.perm_insertionSort _ _).nodup_iff.mpr firstDedupAux_nodup

theorem mem_get_region_names {t : Table} {s : String} :
    s ∈ get_region_names t ↔ ∃ r ∈ t.rows, r.region = some s := by
  unfold get_region_names
  rw [List.mem_insertionSort, firstDedupAux_mem]
  simp [List.mem_filterMap]

theorem split_by_region_lengths (t : Table) :
    ((split_by_region t).map fun p => p.2.rows.length) =
      (get_region_names t).map
        fun s => (t.rows.filter fun r => r.region = some s).length := by
  unfold split_by_region
  rw [List.map_map]
  refine List.map_congr_left fun s _ => ?_
  simp [List.length_insertionSort]

theorem split_by_region_sum_counts (t : Table) :
    (((split_by_region t).map fun p => p.2.rows.length)).sum =
      (t.rows.filter fun r => r.region ≠ none).length := by
  rw [split_by_region_lengths]
  refine sum_region_counts (get_region_names_nodup t) ?_
  intro r hr s hs
  exact mem_get_region_names.mpr ⟨r, hr, hs⟩

/-- C9: partition keys of split_by_region are exactly the distinct
non-null Region values, sorted and duplicate-free; rows with a null Region
contribute to no partition, so the partition sizes sum to the count of
non-null-Region rows. -/
theorem split_by_region_keys_and_nulls (t : Table) :
    (split_by_region t).map Prod.fst = get_region_names t ∧
    (get_region_names t).Nodup ∧
    List.Sorted (· ≤ ·) (get_region_names t) ∧
    (∀ s : String, s ∈ get_region_names t ↔ some s ∈ t.rows.map (·.region)) ∧
    ((split_by_region t).map fun p => p.2.rows.length).sum =
      (t.rows.filter fun r => r.region ≠ none).length := by
  refine ⟨?_, get_region_names_nodup t, ?_, ?_, split_by_region_sum_counts t⟩
  · unfold split_by_region
    rw [List.map_map]
    exact (List.map_congr_left fun s _ => rfl).trans (List.map_id _)
  · exact List.sorted_insertionSort _ _
  · intro s
    rw [mem_get_region_names]
    simp [List.mem_map]

/-- tNull has a single row whose Region cell is missing. -/
def tNull : Table :=
  { hasDate := false, hasRegion := true,
    rows := [{ year := some 2023, month := some 1, region := none, model := none,
               deliveries := none, production := none, date := none }] }

/-- Counterexample to C3 as stated: a table with one null-Region row has
row count 1, but split_by_region with default arguments yields no
partition at all, so the partition row counts sum to 0. -/
theorem split_by_region_loses_null_rows :
    ¬ (tNull.rows.length =
        ((split_by_region tNull).map fun p => p.2.rows.length).sum) := by
  simp [tNull, split_by_region, get_region_names, firstDedupAux]

/-- C3 amended: for every table all of whose rows carry a non-null Region
value, the row count of the table equals the sum of the row counts of the
partitions returned by split_by_region with default arguments (rows with a
null Region are dropped by the partitioner, so they must be excluded). -/
theorem split_by_region_partition_complete (t : Table)
    (h : ∀ r ∈ t.rows, r.region ≠ none) :
    t.rows.length =
      ((split_by_region t).map fun p => p.2.rows.length).sum := by
  rw [split_by_region_sum_counts t]
  have hall : t.rows.filter (fun r => r.region ≠ none) = t.rows :=
    List.filter_eq_self.mpr fun r hr => by simpa using h r hr
  rw [hall]

/-- Witness for the amended C3 at the concrete two-region, three-row table
tThree: every row has a region, and 3 = 2 + 1. -/
theorem split_by_region_partition_complete_witness :
    (∀ r ∈ tThree.rows, r.region ≠ none) ∧
    tThree.rows.length =
      ((split_by_region tThree).map fun p => p.2.rows.length).sum :=
  ⟨by intro r hr; simp [tThree, rowYMRM] at hr;
      rcases hr with rfl | rfl | rfl <;> simp,
   split_by_region_partition_complete _
     (by intro r hr; simp [tThree, rowYMRM] at hr;
         rcases hr with rfl | rfl | rfl <;> simp)⟩

/-- cleanDate holds for a Date cell that is already in datetime form (a
parsed timestamp or NaT), i.e. on which `pd.to_datetime` is the
identity. -/
def cleanDate : Option DateCell → Prop
  | some (DateCell.strD _ _) => False
  | _ => True

instance : DecidablePred cleanDate := by
  intro d
  rcases d with _ | c
  · exact isTrue trivial
  · rcases c with ⟨y, m⟩ | ⟨y, m⟩
    · exact isFalse id
    · exact isTrue trivial

theorem toDT_clean {d d' : Option DateCell} (h : toDT d = some d') :
    cleanDate d' := by
  rcases d with _ | c
  · simp [toDT] at h; subst h; trivial
  · rcases c with ⟨y, m⟩ | ⟨y, m⟩
    · rw [toDT] at h
      by_cases hm : 1 ≤ m ∧ m ≤ 12 ∧ inTsRange y m
      · rw [if_pos hm] at h
        cases h
        trivial
      · rw [if_neg hm] at h
        cases h
    · simp [toDT] at h; subst h; trivial

theorem toDT_of_clean {d : Option DateCell} (h : cleanDate d) :
    toDT d = some d := by
  rcases d with _ | c
  · rfl
  · rcases c with ⟨y, m⟩ | ⟨y, m⟩
    · exact absurd h id
    · rfl

theorem rowToDT_clean {r r' : Row} (h : rowToDT r = some r') :
    cleanDate r'.date := by
  unfold rowToDT at h
  rcases hd : toDT r.date with _ | d
  · rw [hd] at h; cases h
  · rw [hd] at h
    cases h
    exact toDT_clean hd

theorem rowToDT_of_clean {r : Row} (h : cleanDate r.date) :
    rowToDT r = some r := by
  unfold rowToDT
  rw [toDT_of_clean h]
  rfl

/-- prepare_some_inv: whenever `_prepare_ts_df` returns a table, that
table has the Date column, and its rows are the numpy-argsorted image of
a clean (all-datetime-or-NaT) row list of the caller's size. -/
theorem prepare_some_inv {t u : Table} (h : _prepare_ts_df t = some u) :
    u.hasDate = true ∧ ∃ rs, (∀ r ∈ rs, cleanDate r.date) ∧
      rs.length = t.rows.length ∧ u.rows = npSortRows rs := by
  unfold _prepare_ts_df _prepare_ts_df_effect at h
  by_cases ht : t.hasDate
  · rw [if_pos ht] at h
    rcases hm : mapOpt rowToDT t.rows with _ | rs
    · rw [hm] at h; cases h
    · rw [hm] at h
      simp only [Option.some.injEq] at h
      subst h
      refine ⟨by simpa [sortByDate] using ht, rs, ?_, mapOpt_length hm, rfl⟩
      intro r hr
      obtain ⟨x, _, hx⟩ := mapOpt_mem hm r hr
      exact rowToDT_clean hx
  · rw [if_neg ht] at h
    rcases ha : add_date_column t with _ | v
    · rw [ha] at h; cases h
    · rw [ha] at h
      dsimp only at h
      rcases hm : mapOpt rowToDT v.rows with _ | rs
      · rw [hm] at h; cases h
      · rw [hm] at h
        simp only [Option.some.injEq] at h
        subst h
        have hv : v.hasDate = true ∧ v.rows.length = t.rows.length := by
          unfold add_date_column at ha
          rcases hm0 : mapOpt addDateRow t.rows with _ | rs0
          · rw [hm0] at ha; cases ha
          · rw [hm0] at ha
            simp only [Option.map_some', Option.some.injEq] at ha
            subst ha
            exact ⟨rfl, mapOpt_length hm0⟩
        refine ⟨by simpa [sortByDate] using hv.1, rs, ?_,
          (mapOpt_length hm).trans hv.2, rfl⟩
        intro r hr
        obtain ⟨x, _, hx⟩ := mapOpt_mem hm r hr
        exact rowToDT_clean hx

/-- C4 amended: for every table of at most 16 rows — where pandas'
default quicksort falls back to its stable insertion sort — the
ensureDate guard is idempotent: whenever `_prepare_ts_df` returns a
table, applying it to its own output returns that output unchanged, same
Date values and same row order. (With 17 or more rows the unstable
quicksort can permute rows sharing a Date; see the counterexample.) -/
theorem prepare_ts_df_idempotent_small (t u : Table)
    (hlen : t.rows.length ≤ 16) (h : _prepare_ts_df t = some u) :
    _prepare_ts_df u = some u := by
  obtain ⟨hdate, rs, hclean, hrslen, hrows⟩ := prepare_some_inv h
  have hrs16 : rs.length ≤ 16 := hrslen ▸ hlen
  have hu_clean : ∀ r ∈ u.rows, cleanDate r.date := by
    intro r hr
    rw [hrows] at hr
    exact hclean r (npSortRows_mem hr)
  unfold _prepare_ts_df _prepare_ts_df_effect
  rw [if_pos hdate]
  rw [mapOpt_of_forall_some fun r hr => rowToDT_of_clean (hu_clean r hr)]
  show some (sortByDate u) = some u
  have : npSortRows u.rows = u.rows := by
    rw [hrows]
    exact npSortRows_idem_small hrs16
  rw [show sortByDate u = u from by
    unfold sortByDate
    rw [this]]

/-- tTie has 17 rows sharing the Date 2023-01 (already datetime-typed),
with distinct Model labels to observe the row order; its Year and Month
columns are integer-coercible. Seventeen is the smallest size at which
numpy quicksort stops using its stable insertion sort. -/
def tTie : Table :=
  { hasDate := true, hasRegion := true,
    rows := (List.range 17).map fun i =>
      { year := some 2023, month := some 1, region := none,
        model := some (String.mk [Char.ofNat (97 + i)]), deliveries := none,
        production := none, date := some (DateCell.ts 2023 1) } }

/-- Counterexample to C4 as stated: tTie's Year and Month are
integer-coercible, yet applying `_prepare_ts_df` twice does not yield the
same result as applying it once — the first call permutes the 17
equal-Date rows with numpy's unstable quicksort partition, and the second
call permutes them again (back, in this case), so the row order differs
between one and two applications. The Model column projection shows the
orders. -/
theorem prepare_ts_df_not_idempotent :
    (∀ r ∈ tTie.rows, r.year = some 2023 ∧ r.month = some 1) ∧
    ((_prepare_ts_df tTie).bind _prepare_ts_df).map
        (fun w => w.rows.map (·.model)) ≠
      (_prepare_ts_df tTie).map (fun w => w.rows.map (·.model)) := by
  constructor
  · intro r hr
    simp only [tTie, List.mem_map, List.mem_range] at hr
    obtain ⟨i, _, rfl⟩ := hr
    exact ⟨rfl, rfl⟩
  · decide

/-- uThree is the prepared form of tThree: Date synthesized, rows already
in chronological order. -/
def uThree : Table :=
  { hasDate := true, hasRegion := true,
    rows := [{ rowYMRM 2023 1 ("US") ("X") 100 120 with date := some (DateCell.ts 2023 1) },
             { rowYMRM 2023 1 ("EU") ("X") 50 120 with date := some (DateCell.ts 2023 1) },
             { rowYMRM 2023 2 ("US") ("X") 80 90 with date := some (DateCell.ts 2023 2) }] }

/-- Witness for the amended C4 at the concrete three-row table tThree
(three rows, within the insertion-sort regime), whose prepared form is
uThree. -/
theorem prepare_ts_df_idempotent_small_witness :
    tThree.rows.length ≤ 16 ∧
    _prepare_ts_df tThree = some uThree ∧ _prepare_ts_df uThree = some uThree :=
  ⟨by simp [tThree],
   by simp [tThree, uThree, _prepare_ts_df, _prepare_ts_df_effect, add_date_column,
      mapOpt, addDateRow, truncQ, sortByDate, npSortRows_small, rowKeyLe, rowKey,
      rowYMRM, List.insertionSort, List.orderedInsert, dateLe, keyLe, cellKey,
      rowToDT, toDT, inTsRange, tsMinKey, tsMaxKey],
   prepare_ts_df_idempotent_small tThree uThree (by simp [tThree])
     (by simp [tThree, uThree, _prepare_ts_df, _prepare_ts_df_effect, add_date_column,
       mapOpt, addDateRow, truncQ, sortByDate, npSortRows_small, rowKeyLe, rowKey,
       rowYMRM, List.insertionSort, List.orderedInsert, dateLe, keyLe, cellKey,
       rowToDT, toDT, inTsRange, tsMinKey, tsMaxKey])⟩

/-- tMut has the Date column already present, holding an unparsed string
date, as a freshly loaded CSV with a Date column would. -/
def tMut : Table :=
  { hasDate := true, hasRegion := true,
    rows := [{ rowYMRM 2023 1 ("US") ("A") 1 1 with date := some (DateCell.strD 2023 1) }] }

/-- Counterexample to C5 as stated: calling `_prepare_ts_df` on tMut
succeeds, yet the caller's table is changed in place — the assignment
`df[date_col] = pd.to_datetime(df[date_col])` rewrites the Date column of
the caller's frame, turning the string cell into a timestamp. -/
theorem prepare_ts_df_mutates_caller :
    (_prepare_ts_df_effect tMut).1.isSome ∧ (_prepare_ts_df_effect tMut).2 ≠ tMut := by
  have heff : (_prepare_ts_df_effect tMut).2 =
      { tMut with rows := [{ rowYMRM 2023 1 ("US") ("A") 1 1 with
          date := some (DateCell.ts 2023 1) }] } := by
    simp [tMut, _prepare_ts_df_effect, mapOpt, rowToDT, toDT, rowYMRM, inTsRange, tsMinKey, tsMaxKey]
  constructor
  · simp [tMut, _prepare_ts_df_effect, mapOpt, rowToDT, toDT, rowYMRM, inTsRange, tsMinKey, tsMaxKey]
  · rw [heff]
    intro hEq
    have hdates := congrArg (fun tb => tb.rows.map (·.date)) hEq
    simp [tMut, rowYMRM] at hdates

/-- C5 amended: add_date_column copies its input (`df = df.copy()`), so it
never mutates the caller's table; `_prepare_ts_df` leaves the caller's
table unchanged when the Date column is absent (the local name is rebound
to add_date_column's fresh copy) or when every Date cell is already
datetime/NaT — but not in general (see the counterexample). -/
theorem prepare_ts_df_no_mutation (t : Table)
    (h : t.hasDate = false ∨ ∀ r ∈ t.rows, cleanDate r.date) :
    (_prepare_ts_df_effect t).2 = t := by
  unfold _prepare_ts_df_effect
  rcases h with hf | hclean
  · rw [if_neg (by rw [hf]; exact Bool.false_ne_true)]
    rcases ha : add_date_column t with _ | v
    · rfl
    · dsimp only
      rcases hm : mapOpt rowToDT v.rows with _ | rs <;> rfl
  · by_cases ht : t.hasDate
    · rw [if_pos ht]
      rw [mapOpt_of_forall_some fun r hr => rowToDT_of_clean (hclean r hr)]
    · rw [if_neg ht]
      rcases ha : add_date_column t with _ | v
      · rfl
      · dsimp only
        rcases hm : mapOpt rowToDT v.rows with _ | rs <;> rfl

/-- Witness for the amended C5: on tThree, which has no Date column, the
caller's table is returned untouched. -/
theorem prepare_ts_df_no_mutation_witness :
    (tThree.hasDate = false ∨ ∀ r ∈ tThree.rows, cleanDate r.date) ∧
    (_prepare_ts_df_effect tThree).2 = tThree :=
  ⟨Or.inl rfl, prepare_ts_df_no_mutation tThree (Or.inl rfl)⟩

/-- distinctDates_spec: the group keys are duplicate-free, chronologically
sorted, and characterized by membership of the Date value in the table. -/
theorem distinctDates_spec (u : Table) :
    (distinctDates u).Nodup ∧ List.Sorted keyLe (distinctDates u) ∧
      ∀ d, d ∈ distinctDates u ↔ some d ∈ u.rows.map (·.date) := by
  refine ⟨?_, List.sorted_insertionSort keyLe _, ?_⟩
  · exact (List.perm_insertionSort _ _).nodup_iff.mpr firstDedupAux_nodup
  · intro d
    unfold distinctDates
    rw [List.mem_insertionSort, firstDedupAux_mem]
    simp [List.mem_filterMap, List.mem_map]

/-- C6: for every input table on which the guard succeeds, the
monthly-deliveries aggregation has exactly one entry per distinct Date of
the prepared table and its consecutive Date keys are in non-decreasing
chronological order (here: sorted, and duplicate-free). -/
theorem monthly_deliveries_keys (t u : Table) (m : List (DateCell × ℚ))
    (hp : _prepare_ts_df t = some u) (hm : monthlyDeliveries t = some m) :
    (m.map Prod.fst).Nodup ∧ List.Sorted keyLe (m.map Prod.fst) ∧
      ∀ d, d ∈ m.map Prod.fst ↔ some d ∈ u.rows.map (·.date) := by
  unfold monthlyDeliveries at hm
  rw [hp] at hm
  simp only [Option.map_some', Option.some.injEq] at hm
  subst hm
  have hfst : ((distinctDates u).map fun d => (d, sumDeliv u d)).map Prod.fst =
      distinctDates u := by
    rw [List.map_map]
    exact (List.map_congr_left fun d _ => rfl).trans (List.map_id _)
  rw [hfst]
  exact distinctDates_spec u

/-- Witness for C6 at the concrete table tThree, whose prepared form is
uThree and whose aggregation has the two keys 2023-01 and 2023-02. -/
theorem monthly_deliveries_keys_witness :
    _prepare_ts_df tThree = some uThree ∧
    monthlyDeliveries tThree = some [(DateCell.ts 2023 1, 150), (DateCell.ts 2023 2, 80)] ∧
    (([(DateCell.ts 2023 1, 150), (DateCell.ts 2023 2, 80)] :
        List (DateCell × ℚ)).map Prod.fst).Nodup ∧
    List.Sorted keyLe (([(DateCell.ts 2023 1, 150), (DateCell.ts 2023 2, 80)] :
        List (DateCell × ℚ)).map Prod.fst) ∧
    (∀ d, d ∈ (([(DateCell.ts 2023 1, 150), (DateCell.ts 2023 2, 80)] :
        List (DateCell × ℚ)).map Prod.fst) ↔
      some d ∈ uThree.rows.map (·.date)) := by
  have hp : _prepare_ts_df tThree = some uThree := by
    simp [tThree, uThree, _prepare_ts_df, _prepare_ts_df_effect, add_date_column,
      mapOpt, addDateRow, truncQ, sortByDate, npSortRows_small, rowKeyLe, rowKey, rowYMRM, List.insertionSort,
      List.orderedInsert, dateLe, keyLe, cellKey, rowToDT, toDT, inTsRange, tsMinKey, tsMaxKey]
  have hm : monthlyDeliveries tThree =
      some [(DateCell.ts 2023 1, 150), (DateCell.ts 2023 2, 80)] := by
    simp [tThree, monthlyDeliveries, _prepare_ts_df, _prepare_ts_df_effect,
      add_date_column, mapOpt, addDateRow, truncQ, sortByDate, npSortRows_small, rowKeyLe, rowKey, distinctDates,
      firstDedupAux, sumDeliv, rowYMRM, List.insertionSort, List.orderedInsert,
      dateLe, keyLe, cellKey, rowToDT, toDT, inTsRange, tsMinKey, tsMaxKey]
    norm_num
  obtain ⟨h1, h2, h3⟩ := monthly_deliveries_keys tThree uThree _ hp hm
  exact ⟨hp, hm, h1, h2, h3⟩

/-- tZero is a one-row table whose only delivery count is 0, so the model
pivot has a date whose row-sum is 0. -/
def tZero : Table :=
  { hasDate := false, hasRegion := true,
    rows := [{ year := some 2023, month := some 1, region := some ("US"),
               model := some ("A"), deliveries := some 0, production := none,
               date := none }] }

/-- Counterexample to C2 as stated: on tZero the 2023-01 row-sum is 0, and
the share cell for model A is NaN (pandas 0/0), not the claimed 0.0 — the
code has no policy substituting 0.0 and propagates the undefined value. -/
theorem model_share_zero_total_gives_nan :
    modelShare tZero = some [(DateCell.ts 2023 1, [("A", PVal.nan)])] ∧
    PVal.nan ≠ PVal.val 0 := by
  constructor
  · simp [modelShare, _prepare_ts_df, _prepare_ts_df_effect, add_date_column,
      mapOpt, addDateRow, truncQ, sortByDate, npSortRows_small, rowKeyLe, rowKey, distinctDates, firstDedupAux, tZero,
      List.insertionSort, List.orderedInsert, rowToDT, toDT, shareRow, modelNames,
      cellSum, rowSum, pdiv, inTsRange, tsMinKey, tsMaxKey]
  · intro h
    cases h

/-- C2 amended: in the model-share analysis, a date all of whose per-model
totals are zero yields NaN in every cell of its share row (the undefined
0/0 is propagated, not replaced by 0.0); for a date whose row-sum is
nonzero every share cell is the cell total divided by the row-sum, and
those shares sum exactly to 1. -/
theorem model_share_row_policy (t u : Table)
    (hp : _prepare_ts_df t = some u) (d : DateCell) :
    ((∀ mo ∈ modelNames u, cellSum u d mo = 0) →
        ∀ p ∈ shareRow u d, p.2 = PVal.nan) ∧
    (rowSum u d ≠ 0 →
        (∀ p ∈ shareRow u d, p.2 = PVal.val (cellSum u d p.1 / rowSum u d)) ∧
        ((modelNames u).map fun mo => cellSum u d mo / rowSum u d).sum = 1) := by
  constructor
  · intro hz p hpm
    obtain ⟨mo, hmo, rfl⟩ := List.mem_map.mp hpm
    have hrs : rowSum u d = 0 := by
      unfold rowSum
      refine List.sum_eq_zero fun x hx => ?_
      obtain ⟨mo2, hmo2, rfl⟩ := List.mem_map.mp hx
      exact hz mo2 hmo2
    simp [pdiv, hrs, hz mo hmo]
  · intro hne
    constructor
    · intro p hpm
      obtain ⟨mo, hmo, rfl⟩ := List.mem_map.mp hpm
      simp [pdiv, hne]
    · rw [sum_map_div]
      exact div_self hne

/-- tShare is a one-date, two-model table with totals A 30 and B 70. -/
def tShare : Table :=
  { hasDate := false, hasRegion := true,
    rows := [rowYMRM 2023 1 ("US") ("A") 30 0, rowYMRM 2023 1 ("US") ("B") 70 0] }

/-- uShare is the prepared form of tShare. -/
def uShare : Table :=
  { hasDate := true, hasRegion := true,
    rows := [{ rowYMRM 2023 1 ("US") ("A") 30 0 with date := some (DateCell.ts 2023 1) },
             { rowYMRM 2023 1 ("US") ("B") 70 0 with date := some (DateCell.ts 2023 1) }] }

/-- Witness for the amended C2 at tShare: the 2023-01 row-sum 100 is
nonzero, every share cell is defined, and the shares sum to 1. -/
theorem model_share_row_policy_witness :
    _prepare_ts_df tShare = some uShare ∧
    rowSum uShare (DateCell.ts 2023 1) ≠ 0 ∧
    (∀ p ∈ shareRow uShare (DateCell.ts 2023 1),
        p.2 = PVal.val (cellSum uShare (DateCell.ts 2023 1) p.1 /
          rowSum uShare (DateCell.ts 2023 1))) ∧
    ((modelNames uShare).map
        fun mo => cellSum uShare (DateCell.ts 2023 1) mo /
          rowSum uShare (DateCell.ts 2023 1)).sum = 1 := by
  have hp : _prepare_ts_df tShare = some uShare := by
    simp [tShare, uShare, _prepare_ts_df, _prepare_ts_df_effect, add_date_column,
      mapOpt, addDateRow, truncQ, sortByDate, npSortRows_small, rowKeyLe, rowKey, rowYMRM, List.insertionSort,
      List.orderedInsert, dateLe, keyLe, cellKey, rowToDT, toDT, inTsRange, tsMinKey, tsMaxKey]
  have hne : rowSum uShare (DateCell.ts 2023 1) ≠ 0 := by
    simp [rowSum, cellSum, modelNames, firstDedupAux, uShare, rowYMRM,
      List.insertionSort, List.orderedInsert]
    split_ifs <;> simp [List.filter] <;> norm_num
  obtain ⟨hcells, hsum⟩ := (model_share_row_policy tShare uShare hp
    (DateCell.ts 2023 1)).2 hne
  exact ⟨hp, hne, hcells, hsum⟩

/-- addDateRow_isSome_iff: the per-row date synthesis succeeds exactly when
Year and Month are castable (non-NaN) and the truncated month is a valid
calendar month. -/
theorem addDateRow_isSome_iff (r : Row) :
    (addDateRow r).isSome ↔
      ∃ y m, r.year = some y ∧ r.month = some m ∧
        1 ≤ truncQ m ∧ truncQ m ≤ 12 ∧ inTsRange (truncQ y) (truncQ m) := by
  rcases hy : r.year with _ | y <;> rcases hmo : r.month with _ | m <;>
    simp [addDateRow, hy, hmo, and_assoc]

/-- addDateAll is the expected successful result of add_date_column: every
row's Date becomes the first of the truncated (Year, Month). -/
def addDateAll (t : Table) : Table :=
  { t with
    hasDate := true
    rows := t.rows.map fun r =>
      { r with date := some (DateCell.ts (truncQ (r.year.getD 0))
          (truncQ (r.month.getD 0))) } }

/-- C10 amended: add_date_column truncates fractional Year and Month
values toward zero before building the date, and — for tables whose
truncated Years are four-digit (at least 1000, so the synthesized string
parses as a literal year) — it succeeds exactly when every row has
castable (non-NaN) Year and Month whose truncated month is a valid
calendar month 1..12 AND whose truncated (Year, Month) lies within the
pandas Timestamp range (1677-10 through 2262-04); on success each row's
Date is the first of the truncated (Year, Month). -/
theorem add_date_column_truncates (t : Table)
    (hyears : ∀ r ∈ t.rows, ∀ y, r.year = some y → 1000 ≤ truncQ y) :
    ((add_date_column t).isSome ↔
      ∀ r ∈ t.rows, ∃ y m, r.year = some y ∧ r.month = some m ∧
        1 ≤ truncQ m ∧ truncQ m ≤ 12 ∧ inTsRange (truncQ y) (truncQ m)) ∧
    ((∀ r ∈ t.rows, ∃ y m, r.year = some y ∧ r.month = some m ∧
        1 ≤ truncQ m ∧ truncQ m ≤ 12 ∧ inTsRange (truncQ y) (truncQ m)) →
      add_date_column t = some (addDateAll t)) := by
  constructor
  · have hmap : (add_date_column t).isSome = (mapOpt addDateRow t.rows).isSome := by
      unfold add_date_column
      cases mapOpt addDateRow t.rows <;> rfl
    rw [hmap, mapOpt_isSome_iff]
    exact forall₂_congr fun r _ => addDateRow_isSome_iff r
  · intro hall
    have hmap : mapOpt addDateRow t.rows = some (t.rows.map fun r =>
        { r with date := some (DateCell.ts (truncQ (r.year.getD 0))
            (truncQ (r.month.getD 0))) }) := by
      refine mapOpt_eq_map ?_
      intro r hr
      obtain ⟨y, m, hy, hmo, h1, h2, h3⟩ := hall r hr
      unfold addDateRow
      rw [hy, hmo]
      dsimp only
      rw [if_pos ⟨h1, h2, h3⟩]
      simp [hy, hmo]
    unfold add_date_column addDateAll
    rw [hmap]
    rfl

/-- tFrac is a one-row table with fractional Month 2.9 (and Year 2023). -/
def tFrac : Table :=
  { hasDate := false, hasRegion := true,
    rows := [{ year := some 2023, month := some (29/10), region := none,
               model := none, deliveries := none, production := none,
               date := none }] }

/-- tBig is a one-row table with Year 3000 and Month 1: a perfectly valid
calendar month whose first day lies beyond pandas Timestamp.max. -/
def tBig : Table :=
  { hasDate := false, hasRegion := true,
    rows := [{ year := some 3000, month := some 1, region := none,
               model := none, deliveries := none, production := none,
               date := none }] }

/-- Counterexample to C10 as stated: at tBig the Year and Month are
integer-castable and the truncated pair (3000, 1) is a valid calendar
month, yet add_date_column fails (pd.to_datetime raises
OutOfBoundsDatetime beyond 2262-04-11) — so the code does not fail ONLY
on cast failure or an invalid calendar month. -/
theorem add_date_column_out_of_bounds :
    (∀ r ∈ tBig.rows, ∃ y m, r.year = some y ∧ r.month = some m ∧
        1 ≤ truncQ m ∧ truncQ m ≤ 12) ∧
    add_date_column tBig = none := by
  constructor
  · intro r hr
    simp only [tBig, List.mem_singleton] at hr
    subst hr
    exact ⟨3000, 1, rfl, rfl, by norm_num [truncQ], by norm_num [truncQ]⟩
  · simp [tBig, add_date_column, mapOpt, addDateRow, truncQ, inTsRange,
      tsMinKey, tsMaxKey]

/-- Witness for the amended C10 at tFrac: Month 2.9 truncates toward zero
to 2, 2023-02 is inside the Timestamp range, so the synthesized date is
February 2023 and the call does not fail. -/
theorem add_date_column_truncates_witness :
    (∀ r ∈ tFrac.rows, ∀ y, r.year = some y → 1000 ≤ truncQ y) ∧
    (∀ r ∈ tFrac.rows, ∃ y m, r.year = some y ∧ r.month = some m ∧
        1 ≤ truncQ m ∧ truncQ m ≤ 12 ∧ inTsRange (truncQ y) (truncQ m)) ∧
    truncQ (29/10) = 2 ∧ truncQ 2023 = 2023 ∧
    add_date_column tFrac = some (addDateAll tFrac) := by
  have hyears : ∀ r ∈ tFrac.rows, ∀ y, r.year = some y → 1000 ≤ truncQ y := by
    intro r hr y hy
    simp only [tFrac, List.mem_singleton] at hr
    subst hr
    simp only [Option.some.injEq] at hy
    subst hy
    norm_num [truncQ]
  have hall : ∀ r ∈ tFrac.rows, ∃ y m, r.year = some y ∧ r.month = some m ∧
      1 ≤ truncQ m ∧ truncQ m ≤ 12 ∧ inTsRange (truncQ y) (truncQ m) := by
    intro r hr
    simp only [tFrac, List.mem_singleton] at hr
    subst hr
    exact ⟨2023, 29/10, rfl, rfl, by norm_num [truncQ], by norm_num [truncQ],
      by norm_num [truncQ, inTsRange, tsMinKey, tsMaxKey]⟩
  exact ⟨hyears, hall, by norm_num [truncQ], by norm_num [truncQ],
    (add_date_column_truncates tFrac hyears).2 hall⟩

end Tesla
